import Mathlib

/-!
Verification of the orchestration logic of the coronagraphic level-3
calibration pipeline (jwst/pipeline/calwebb_coron3.py).

Strings are modelled as lists of characters (`Str`).  The path helpers
(`os.path.split`, `os.path.join`, `os.path.splitext`, `str.rfind`,
Python slicing) are embedded faithfully below, following the CPython
posixpath implementations.  The pipeline `process` method is embedded as
a pure function that is parameterized by the opaque stage collaborators
(stack_refs, align_refs, klip, outlier_detection, resample) and the
container loader, and that returns the ordered trace of observable
events of a run: stage invocations with their arguments, container
creations and closings, and file saves with their derived paths.
Python exceptions (here: indexing a missing first product) are modelled
by returning `none`.
-/

abbrev Str := List Char

/-- Python str.rfind for a single character, as an optional index:
`some k` when `k` is the index of the last occurrence, `none` (Python -1)
when the character does not occur. -/
def rfindIdx (c : Char) : Str → Option Nat
  | [] => none
  | a :: rest =>
    match rfindIdx c rest with
    | some k => some (k + 1)
    | none => if a = c then some 0 else none

/-- Python `base[:base.rfind('_')]`: slice up to the last underscore when
one exists, and `base[:-1]` (drop the last character) when `rfind`
returned -1. -/
def cutAtLastUnderscore (base : Str) : Str :=
  match rfindIdx '_' base with
  | some k => base.take k
  | none => base.dropLast

/-- The tail component of `os.path.split`: everything after the last
slash (the whole string when there is no slash). -/
def tailLastSlash (p : Str) : Str :=
  match rfindIdx '/' p with
  | some k => p.drop (k + 1)
  | none => p

/-- posixpath.join for two arguments: an absolute second argument wins;
otherwise the parts are concatenated, inserting a slash unless the first
part is empty or already ends in a slash. -/
def pyJoin (a b : Str) : Str :=
  if b.head? = some '/' then b
  else if a = [] ∨ a.getLast? = some '/' then a ++ b
  else a ++ '/' :: b

/-- The index right after the last slash (Python's `sepIndex + 1`, which
is 0 when rfind returned -1): where the base-name region of a path
starts. -/
def sepAdj (p : Str) : Nat :=
  match rfindIdx '/' p with
  | none => 0
  | some s => s + 1

/-- posixpath.splitext: split off the extension at the last dot, provided
that dot lies after the last slash and at least one character between the
last slash and that dot is not itself a dot (so that a leading run of
dots of the base name never counts as an extension). -/
def splitextPy (p : Str) : Str × Str :=
  match rfindIdx '.' p with
  | none => (p, [])
  | some dt =>
    if sepAdj p ≤ dt then
      if ((p.take dt).drop (sepAdj p)).any (fun a => a ≠ '.') then
        (p.take dt, p.drop dt)
      else (p, [])
    else (p, [])

/-- Strip trailing slashes (Python `head.rstrip('/')`). -/
def rstripSlash (l : Str) : Str :=
  (l.reverse.dropWhile (fun a => a = '/')).reverse

/-- posixpath.dirname: the head component of `os.path.split`, with
trailing slashes stripped unless the head consists only of slashes. -/
def pyDirname (p : Str) : Str :=
  match rfindIdx '/' p with
  | none => []
  | some k =>
    let head := p.take (k + 1)
    if head.all (fun a => a = '/') then head else rstripSlash head

/-- Embedding of `mk_filename(output_dir, filename, suffix)`: when an
output directory is given, the directory component of the input is
discarded and the base name is re-rooted under it; then everything from
the last underscore of the (re-rooted) name's stem onward is replaced by
an underscore and the suffix, keeping the extension. -/
def mk_filename (output_dir : Option Str) (filename : Str) (sfx : Str) : Str :=
  let fn : Str :=
    match output_dir with
    | none => filename
    | some d => pyJoin d (tailLastSlash filename)
  let be := splitextPy fn
  cutAtLastUnderscore be.1 ++ '_' :: (sfx ++ be.2)

/-- Python uppercasing of a string, character-wise (ASCII behaviour,
which is what the PSF/SCIENCE exposure-type tags use). -/
def pyUpper (s : Str) : Str := s.map Char.toUpper

def psfTag : Str := ['P', 'S', 'F']

def scienceTag : Str := ['S', 'C', 'I', 'E', 'N', 'C', 'E']

def psfalignSfx : Str := ['p', 's', 'f', 'a', 'l', 'i', 'g', 'n']

def psfsubSfx : Str := ['p', 's', 'f', 's', 'u', 'b']

def psfstackType : Str := ['p', 's', 'f', 's', 't', 'a', 'c', 'k']

def coroncmbType : Str := ['c', 'o', 'r', 'o', 'n', 'c', 'm', 'b']

/-! ## Pipeline data model

`CubeModel` carries a data cube with a leading plane dimension plus
error and data-quality cubes, metadata attributes, and a WCS; the
concrete array/metadata contents are opaque to the orchestration logic
and are modelled by natural numbers.  `ImageModel` is one plane.  -/

abbrev Arr := Nat

abbrev MetaT := Nat

abbrev WcsT := Nat

structure CubeModel where
  data : List Arr
  err : List Arr
  dq : List Arr
  meta : MetaT
  wcs : WcsT
deriving DecidableEq, Inhabited

structure ImageModel where
  data : Arr
  err : Arr
  dq : Arr
  meta : MetaT
  wcs : WcsT
deriving DecidableEq, Inhabited

/-- One association member: an exposure-type tag and an exposure file
name. -/
structure Member where
  exptype : Str
  expname : Str
deriving DecidableEq, Inhabited

/-- One association product: a name template (modelled, after
`str.format` substitution of the `product_type` placeholder, as a
function from the product-type tag to the formatted name) and the member
list. -/
structure Product where
  name : Str → Str
  members : List Member

/-- The association manifest: an ordered list of products; `process`
uses only the first. -/
structure Assoc where
  products : List Product

/-- The opaque collaborators of the orchestrator: the container loader
(`datamodels.CubeModel(file)`) and the five calibration steps, plus the
pipeline's `output_dir` option. -/
structure Env where
  loadCube : Str → CubeModel
  stack_refs : List CubeModel → CubeModel
  align_refs : Str → CubeModel → CubeModel
  klip : Str → CubeModel → CubeModel
  outlier_detection : List ImageModel → List ImageModel
  resample : List ImageModel → CubeModel
  output_dir : Option Str

/-- Partition of the first product's members into PSF and science-target
file lists, embedded from the member loop of `process`: each member is
tested with `member['exptype'].upper() == 'PSF'` and with
`member['exptype'].upper() == 'SCIENCE'`, appending its `expname` to the
respective list, in manifest order. -/
def partitionMembers : List Member → List Str × List Str
  | [] => ([], [])
  | m :: rest =>
    let pt := partitionMembers rest
    (if pyUpper m.exptype = psfTag then m.expname :: pt.1 else pt.1,
     if pyUpper m.exptype = scienceTag then m.expname :: pt.2 else pt.2)

/-- The split step of a target branch: for each index `i` of the leading
dimension of the KLIP result's data cube, build an `ImageModel` from the
i-th data/err/dq planes, copy the metadata attributes from the KLIP
result (`image.update(psf_sub)`), and copy its WCS verbatim
(`image.meta.wcs = psf_sub.meta.wcs`). -/
def splitPlanes (c : CubeModel) : List ImageModel :=
  (List.range c.data.length).map (fun i =>
    { data := c.data.getD i 0
      err := c.err.getD i 0
      dq := c.dq.getD i 0
      meta := c.meta
      wcs := c.wcs })

/-- Container kinds, naming the variables of `process` that hold large
containers. -/
inductive CKind
  | psfModels
  | inputCube
  | psfStack
  | psfAligned
  | psfSub
  | targetModels
  | resampleInput
  | result
deriving DecidableEq

/-- Observable events of a run of `process`, in program order: container
creations (tagged with a fresh id, a modelling device for object
identity), `close()` calls, stage invocations with their arguments, and
`save` calls with the container kind and the derived output path. -/
inductive Ev
  | create (id : Nat) (k : CKind)
  | close (id : Nat)
  | stackCall (arg : List CubeModel)
  | alignCall (target : Str) (stack : CubeModel)
  | klipCall (target : Str) (aligned : CubeModel)
  | outlierCall (arg : List ImageModel)
  | resampleCall (arg : List ImageModel)
  | save (k : CKind) (path : Str)
deriving DecidableEq

/-- The event block of one iteration of the per-target loop of
`process`, with fresh ids `ctr` (psf_aligned), `ctr+1` (psf_sub), and
`ctr+2` (the target_models container): align_refs is called with the
target file and the shared PSF stack, the alignment result is saved
under suffix psfalign, klip is called, psf_aligned is closed, the KLIP
result is saved under suffix psfsub, the per-plane container is built,
and outlier_detection is called on it. -/
def branchEvents (env : Env) (psf_stack : CubeModel) (t : Str) (ctr : Nat) : List Ev :=
  let psf_aligned := env.align_refs t psf_stack
  let psf_sub := env.klip t psf_aligned
  [Ev.alignCall t psf_stack,
   Ev.create ctr CKind.psfAligned,
   Ev.save CKind.psfAligned (mk_filename env.output_dir t psfalignSfx),
   Ev.klipCall t psf_aligned,
   Ev.create (ctr + 1) CKind.psfSub,
   Ev.close ctr,
   Ev.save CKind.psfSub (mk_filename env.output_dir t psfsubSfx),
   Ev.create (ctr + 2) CKind.targetModels,
   Ev.outlierCall (splitPlanes psf_sub)]

/-- The list of single-plane models a target branch contributes: the
split of its KLIP result. -/
def branchImages (env : Env) (psf_stack : CubeModel) (t : Str) : List ImageModel :=
  splitPlanes (env.klip t (env.align_refs t psf_stack))

/-- The per-target loop of `process`: for each target file, emit the
branch events and append the outlier-detection output for that branch to
the running resample input; returns the events, the accumulated resample
input, and the next fresh id. -/
def targetLoop (env : Env) (psf_stack : CubeModel) :
    List Str → Nat → List Ev × List ImageModel × Nat
  | [], ctr => ([], [], ctr)
  | t :: rest, ctr =>
    let out := env.outlier_detection (branchImages env psf_stack t)
    let r := targetLoop env psf_stack rest (ctr + 3)
    (branchEvents env psf_stack t ctr ++ r.1, out ++ r.2.1, r.2.2)

/-- Re-root a formatted product name under the output directory when one
is configured (`os.path.join(self.output_dir, output_file)`). -/
def joinOut (output_dir : Option Str) (f : Str) : Str :=
  match output_dir with
  | none => f
  | some d => pyJoin d f

/-- The event trace of a successful run of `process` (both partitions
nonempty), given the first product and the two file lists: create the
psf_models container (id 0), load and append each PSF cube (ids 1..n,
each closed right after appending), call stack_refs, create the stack
(id n+1), close psf_models, save the psfstack product, create the
resample input container (id n+2), run the per-target loop (ids from
n+3), call resample on the accumulated input, create the result, save
the final coroncmb product, and close the result. -/
def successTrace (env : Env) (prod : Product)
    (psf_files targ_files : List Str) : List Ev :=
  let n := psf_files.length
  let cubes := psf_files.map env.loadCube
  let psf_stack := env.stack_refs cubes
  let lp := targetLoop env psf_stack targ_files (n + 3)
  Ev.create 0 CKind.psfModels ::
    ((List.range n).map (fun i => [Ev.create (i + 1) CKind.inputCube,
                                    Ev.close (i + 1)])).flatten ++
    [Ev.stackCall cubes,
     Ev.create (n + 1) CKind.psfStack,
     Ev.close 0,
     Ev.save CKind.psfStack (joinOut env.output_dir (prod.name psfstackType)),
     Ev.create (n + 2) CKind.resampleInput] ++
    lp.1 ++
    [Ev.resampleCall lp.2.1,
     Ev.create lp.2.2 CKind.result,
     Ev.save CKind.result (joinOut env.output_dir (prod.name coroncmbType)),
     Ev.close lp.2.2]

/-- Embedding of `Coron3Pipeline.process`: take the first product of the
association (`none` models the IndexError raised when the product list
is empty), partition its members into PSF and SCIENCE file lists, return
with an empty trace when either list is empty (the logged abort paths),
and otherwise run the full pipeline, returning its event trace. -/
def process (env : Env) (asn : Assoc) : Option (List Ev) :=
  match asn.products.head? with
  | none => none
  | some prod =>
    let pt := partitionMembers prod.members
    if pt.1 = [] then some []
    else if pt.2 = [] then some []
    else some (successTrace env prod pt.1 pt.2)

/-- The directory part that pyJoin prepends for a relative (slash-free)
second argument. -/
def joinDir (d : Str) : Str :=
  if d = [] then []
  else if d.getLast? = some '/' then d
  else d ++ ['/']

/-- The head component of the last-slash split (everything up to and
including the last slash), used to decompose a path. -/
def headLastSlash (p : Str) : Str :=
  match rfindIdx '/' p with
  | none => []
  | some k => p.take (k + 1)

/-- The re-rooted file name `mk_filename` operates on: the input itself
when no output directory is configured, and the input's base name joined
under the output directory otherwise. -/
def reroot (od : Option Str) (fn : Str) : Str :=
  match od with
  | none => fn
  | some d => pyJoin d (tailLastSlash fn)

/-- The directory region of the re-rooted file name. -/
def dirOf (od : Option Str) (fn : Str) : Str :=
  match od with
  | none => headLastSlash fn
  | some d => joinDir d

/-- The id of a close event. -/
def closeId : Ev → Option Nat
  | Ev.close i => some i
  | _ => none

/-- The id and kind of a create event. -/
def createPair : Ev → Option (Nat × CKind)
  | Ev.create i k => some (i, k)
  | _ => none

/-- The kind and path of a save event. -/
def savePair : Ev → Option (CKind × Str)
  | Ev.save k p => some (k, p)
  | _ => none

/-- The argument of an outlier-detection invocation. -/
def outlierArg : Ev → Option (List ImageModel)
  | Ev.outlierCall a => some a
  | _ => none

/-- The argument of a resample invocation. -/
def resampleArg : Ev → Option (List ImageModel)
  | Ev.resampleCall a => some a
  | _ => none

/-- Whether an event is a stage invocation (any of the five steps). -/
def isStageCall : Ev → Bool
  | Ev.stackCall _ => true
  | Ev.alignCall _ _ => true
  | Ev.klipCall _ _ => true
  | Ev.outlierCall _ => true
  | Ev.resampleCall _ => true
  | _ => false

/-- Whether an event is a save. -/
def isSave (e : Ev) : Bool := (savePair e).isSome

/-- The number of `close()` calls `process` is expected to perform, per
container kind, under the spec's release discipline as amended: the
psf_models aggregate, each loaded input cube, each per-target psfalign
container and the final result are released exactly once; the psfstack,
the psfsub results, the per-target split containers and the resample
input are never released. -/
def expectedCloses : CKind → Nat
  | CKind.psfStack => 0
  | CKind.psfSub => 0
  | CKind.targetModels => 0
  | CKind.resampleInput => 0
  | _ => 1

/-- A small concrete cube used to instantiate the opaque stage
collaborators in witnesses and counterexamples. -/
def demoCube : CubeModel :=
  { data := [10, 20], err := [1, 2], dq := [3, 4], meta := 7, wcs := 5 }

/-- A concrete environment: identity-like stages, no output directory. -/
def demoEnv : Env :=
  { loadCube := fun _ => demoCube
    stack_refs := fun _ => demoCube
    align_refs := fun _ c => c
    klip := fun _ c => c
    outlier_detection := fun l => l
    resample := fun _ => demoCube
    output_dir := none }

def psfMemberD : Member := { exptype := ['p', 's', 'f'], expname := ['p', '_', 'a', '.', 'f'] }

def sciMemberD1 : Member :=
  { exptype := ['S', 'C', 'I', 'E', 'N', 'C', 'E'], expname := ['s', '1', '_', 'c', '.', 'f'] }

def sciMemberD2 : Member :=
  { exptype := ['s', 'c', 'i', 'e', 'n', 'c', 'e'], expname := ['s', '2', '_', 'c', '.', 'f'] }

/-- A science member whose base name has no underscore before its
extension. -/
def sciMemberNoUnd : Member :=
  { exptype := ['s', 'c', 'i', 'e', 'n', 'c', 'e'], expname := ['x', 'y', '.', 'f'] }

def demoProd1 : Product :=
  { name := fun tag => 'n' :: '_' :: tag, members := [psfMemberD, sciMemberD1] }

def demoProd2 : Product :=
  { name := fun tag => 'n' :: '_' :: tag,
    members := [psfMemberD, sciMemberD1, sciMemberD2] }

def demoProdNoUnd : Product :=
  { name := fun tag => 'n' :: '_' :: tag, members := [psfMemberD, sciMemberNoUnd] }

def demoAsn1 : Assoc := { products := [demoProd1] }

def demoAsn2 : Assoc := { products := [demoProd2] }

def demoAsnNoUnd : Assoc := { products := [demoProdNoUnd] }

/-- An output-directory override containing an underscore. -/
def outDirUnd : Str :=
  ['/', 't', 'm', 'p', '/', 'o', 'u', 't', '_', 'd', 'i', 'r']

/-- An underscore-free output-directory override. -/
def outDirPlain : Str := ['/', 't', 'm', 'p', '/', 'o', 'u', 't']

def envOutUnd : Env := { demoEnv with output_dir := some outDirUnd }

def envOutPlain : Env := { demoEnv with output_dir := some outDirPlain }

def demoProdPsfOnly : Product :=
  { name := fun tag => 'n' :: '_' :: tag, members := [psfMemberD] }

def demoAsnPsfOnly : Assoc := { products := [demoProdPsfOnly] }

def demoAsnNoProducts : Assoc := { products := [] }

/-- The psfalign path that a run with override /tmp/out_dir derives for
input xy.f: the underscore search escapes into the override directory. -/
def outBadPath : Str :=
  ['/', 't', 'm', 'p', '/', 'o', 'u', 't', '_', 'p', 's', 'f', 'a', 'l',
   'i', 'g', 'n', '.', 'f']

/-! ## Lemmas about the string-level helpers -/

theorem rfindIdx_eq_none_iff (c : Char) (l : Str) :
    rfindIdx c l = none ↔ c ∉ l := by
  induction l with
  | nil => simp [rfindIdx]
  | cons a rest ih =>
    rw [rfindIdx]
    cases h : rfindIdx c rest with
    | some k =>
      have hc : c ∈ rest := by
        by_contra hm
        rw [ih.2 hm] at h
        exact Option.noConfusion h
      simp [hc]
    | none =>
      have hc : c ∉ rest := ih.1 h
      by_cases hac : a = c
      · simp [hac]
      · simp [hac, hc]
        exact fun he => hac he.symm

theorem rfindIdx_append_of_not_mem (c : Char) (a b : Str) (hb : c ∉ b) :
    rfindIdx c (a ++ c :: b) = some a.length := by
  induction a with
  | nil =>
    rw [List.nil_append, rfindIdx, (rfindIdx_eq_none_iff c b).2 hb]
    simp
  | cons x a ih =>
    rw [List.cons_append, rfindIdx, ih]
    rfl

theorem rfindIdx_append_right (c : Char) (a b : Str) (k : Nat)
    (h : rfindIdx c b = some k) :
    rfindIdx c (a ++ b) = some (a.length + k) := by
  induction a with
  | nil => simpa using h
  | cons x a ih =>
    rw [List.cons_append, rfindIdx, ih]
    simp [Nat.succ_add]

theorem rfindIdx_append_of_none (c : Char) (a b : Str)
    (h : rfindIdx c b = none) :
    rfindIdx c (a ++ b) = rfindIdx c a := by
  induction a with
  | nil => simpa using h
  | cons x a ih => rw [List.cons_append, rfindIdx, ih, rfindIdx]

theorem rfindIdx_eq_some (c : Char) (l : Str) (k : Nat)
    (h : rfindIdx c l = some k) :
    ∃ a b, l = a ++ c :: b ∧ a.length = k ∧ c ∉ b := by
  induction l generalizing k with
  | nil => exact Option.noConfusion h
  | cons x rest ih =>
    rw [rfindIdx] at h
    cases hr : rfindIdx c rest with
    | some k' =>
      rw [hr] at h
      simp only [Option.some.injEq] at h
      obtain ⟨a, b, hab, hk, hcb⟩ := ih k' hr
      refine ⟨x :: a, b, ?_, ?_, hcb⟩
      · rw [hab, List.cons_append]
      · simp [hk, h]
    | none =>
      rw [hr] at h
      by_cases hxc : x = c
      · rw [if_pos hxc] at h
        simp only [Option.some.injEq] at h
        exact ⟨[], rest, by simp [hxc], by simp [h], (rfindIdx_eq_none_iff c rest).1 hr⟩
      · rw [if_neg hxc] at h
        exact Option.noConfusion h

theorem rfindIdx_lt_length (c : Char) (l : Str) (k : Nat)
    (h : rfindIdx c l = some k) : k < l.length := by
  obtain ⟨a, b, hab, hk, -⟩ := rfindIdx_eq_some c l k h
  rw [hab, ← hk]
  simp

theorem exists_last_of_mem (c : Char) (l : Str) (h : c ∈ l) :
    ∃ a b, l = a ++ c :: b ∧ c ∉ b ∧ rfindIdx c l = some a.length := by
  cases hr : rfindIdx c l with
  | none => exact absurd h ((rfindIdx_eq_none_iff c l).1 hr)
  | some k =>
    obtain ⟨a, b, hab, hk, hcb⟩ := rfindIdx_eq_some c l k hr
    exact ⟨a, b, hab, hcb, by rw [hk]⟩

theorem cutAtLastUnderscore_append (X Y : Str) (hY : '_' ∉ Y) :
    cutAtLastUnderscore (X ++ '_' :: Y) = X := by
  rw [cutAtLastUnderscore, rfindIdx_append_of_not_mem _ _ _ hY]
  exact List.take_left X ('_' :: Y)

theorem cutAtLastUnderscore_of_not_mem (X : Str) (h : '_' ∉ X) :
    cutAtLastUnderscore X = X.dropLast := by
  rw [cutAtLastUnderscore, (rfindIdx_eq_none_iff _ _).2 h]

theorem tailLastSlash_of_not_mem (p : Str) (h : '/' ∉ p) :
    tailLastSlash p = p := by
  rw [tailLastSlash, (rfindIdx_eq_none_iff _ _).2 h]

theorem drop_len_succ_append (a b : Str) (c : Char) :
    (a ++ c :: b).drop (a.length + 1) = b := by
  have h2 : a ++ c :: b = (a ++ [c]) ++ b := by simp
  have h3 : a.length + 1 = (a ++ [c]).length := by simp
  rw [h2, h3]
  exact List.drop_left _ _

theorem take_len_append (a b : Str) (c : Char) :
    (a ++ c :: b).take a.length = a := List.take_left a (c :: b)

theorem not_slash_mem_tailLastSlash (p : Str) : '/' ∉ tailLastSlash p := by
  cases hr : rfindIdx '/' p with
  | none =>
    rw [tailLastSlash, hr]
    exact (rfindIdx_eq_none_iff _ _).1 hr
  | some k =>
    rw [tailLastSlash, hr]
    show '/' ∉ p.drop (k + 1)
    obtain ⟨a, b, hab, hk, hcb⟩ := rfindIdx_eq_some '/' p k hr
    subst hk
    rw [hab, drop_len_succ_append]
    exact hcb

theorem tailLastSlash_append (D t : Str)
    (hD : D = [] ∨ D.getLast? = some '/') (ht : '/' ∉ t) :
    tailLastSlash (D ++ t) = t := by
  cases hD with
  | inl h => rw [h, List.nil_append, tailLastSlash_of_not_mem t ht]
  | inr h =>
    have hD' : D.dropLast ++ ['/'] = D := List.dropLast_append_getLast? '/' h
    have e1 : D ++ t = D.dropLast ++ '/' :: t := by rw [← hD']; simp
    have hr : rfindIdx '/' (D ++ t) = some D.dropLast.length := by
      rw [e1]; exact rfindIdx_append_of_not_mem _ _ _ ht
    rw [tailLastSlash, hr]
    show (D ++ t).drop (D.dropLast.length + 1) = t
    rw [e1, drop_len_succ_append]

theorem joinDir_ok (d : Str) :
    joinDir d = [] ∨ (joinDir d).getLast? = some '/' := by
  rw [joinDir]
  split_ifs with h1 h2
  · exact Or.inl rfl
  · exact Or.inr h2
  · exact Or.inr (List.getLast?_concat d)

theorem pyJoin_eq (d t : Str) (ht : '/' ∉ t) :
    pyJoin d t = joinDir d ++ t := by
  have hh : ¬t.head? = some '/' := by
    intro hc
    cases t with
    | nil => simp at hc
    | cons x xs =>
      rw [List.head?_cons, Option.some.injEq] at hc
      exact ht (by rw [← hc]; exact List.mem_cons_self x xs)
  rw [pyJoin, if_neg hh, joinDir]
  by_cases h1 : d = []
  · simp [h1]
  · rw [if_neg h1]
    by_cases h2 : d.getLast? = some '/'
    · rw [if_pos (Or.inr h2), if_pos h2]
    · rw [if_neg (by simp [h1, h2] : ¬(d = [] ∨ d.getLast? = some '/')), if_neg h2]
      simp

theorem headLastSlash_append_tail (p : Str) :
    headLastSlash p ++ tailLastSlash p = p := by
  cases hr : rfindIdx '/' p with
  | none => rw [headLastSlash, hr, tailLastSlash, hr]; rfl
  | some k =>
    rw [headLastSlash, hr, tailLastSlash, hr]
    exact List.take_append_drop (k + 1) p

theorem take_len_succ_append (a b : Str) (c : Char) :
    (a ++ c :: b).take (a.length + 1) = a ++ [c] := by
  have h2 : a ++ c :: b = (a ++ [c]) ++ b := by simp
  have h3 : a.length + 1 = (a ++ [c]).length := by simp
  rw [h2, h3]
  exact List.take_left _ _

theorem headLastSlash_ok (p : Str) :
    headLastSlash p = [] ∨ (headLastSlash p).getLast? = some '/' := by
  cases hr : rfindIdx '/' p with
  | none => rw [headLastSlash, hr]; exact Or.inl rfl
  | some k =>
    rw [headLastSlash, hr]
    right
    show (p.take (k + 1)).getLast? = some '/'
    obtain ⟨a, b, hab, hk, -⟩ := rfindIdx_eq_some '/' p k hr
    subst hk
    rw [hab, take_len_succ_append]
    exact List.getLast?_concat _

theorem reroot_decomp (od : Option Str) (fn : Str) :
    reroot od fn = dirOf od fn ++ tailLastSlash fn ∧
      (dirOf od fn = [] ∨ (dirOf od fn).getLast? = some '/') := by
  cases od with
  | none => exact ⟨(headLastSlash_append_tail fn).symm, headLastSlash_ok fn⟩
  | some d =>
    exact ⟨pyJoin_eq d _ (not_slash_mem_tailLastSlash fn), joinDir_ok d⟩

theorem mk_filename_eq (od : Option Str) (fn sfx : Str) :
    mk_filename od fn sfx =
      cutAtLastUnderscore (splitextPy (reroot od fn)).1 ++
        '_' :: (sfx ++ (splitextPy (reroot od fn)).2) := by
  cases od <;> rfl

theorem sepAdj_of_not_mem (p : Str) (h : '/' ∉ p) : sepAdj p = 0 := by
  rw [sepAdj, (rfindIdx_eq_none_iff _ _).2 h]

theorem splitextPy_cat (p : Str) :
    (splitextPy p).1 ++ (splitextPy p).2 = p := by
  cases hr : rfindIdx '.' p with
  | none => simp only [splitextPy, hr]; simp
  | some dt =>
    simp only [splitextPy, hr]
    split_ifs <;> simp [List.take_append_drop]

theorem splitextPy_append (D t : Str)
    (hD : D = [] ∨ D.getLast? = some '/') (ht : '/' ∉ t) :
    splitextPy (D ++ t) = (D ++ (splitextPy t).1, (splitextPy t).2) := by
  cases hD with
  | inl h => subst h; simp
  | inr h =>
    have hD' : D.dropLast ++ ['/'] = D := List.dropLast_append_getLast? '/' h
    have e1 : D ++ t = D.dropLast ++ '/' :: t := by rw [← hD']; simp
    have hsep : rfindIdx '/' (D ++ t) = some D.dropLast.length := by
      rw [e1]; exact rfindIdx_append_of_not_mem _ _ _ ht
    have hsepAdj : sepAdj (D ++ t) = D.dropLast.length + 1 := by
      rw [sepAdj, hsep]
    have hsept : sepAdj t = 0 := sepAdj_of_not_mem t ht
    cases hdt : rfindIdx '.' t with
    | some dt =>
      have hd2 : rfindIdx '.' ('/' :: t) = some (dt + 1) := by
        rw [rfindIdx, hdt]
      have hdall : rfindIdx '.' (D ++ t) = some (D.dropLast.length + 1 + dt) := by
        rw [e1, rfindIdx_append_right '.' _ _ _ hd2]
        congr 1
        omega
      have hlen : D.dropLast.length + 1 + dt = (D.dropLast ++ ['/']).length + dt := by
        simp
      have htake : (D ++ t).take (D.dropLast.length + 1 + dt) = D ++ t.take dt := by
        rw [e1]
        have h2 : D.dropLast ++ '/' :: t = (D.dropLast ++ ['/']) ++ t := by simp
        rw [h2, hlen, List.take_append, hD']
      have hdrop : (D ++ t).drop (D.dropLast.length + 1 + dt) = t.drop dt := by
        rw [e1]
        have h2 : D.dropLast ++ '/' :: t = (D.dropLast ++ ['/']) ++ t := by simp
        rw [h2, hlen, List.drop_append]
      have hslice : ((D ++ t).take (D.dropLast.length + 1 + dt)).drop
          (D.dropLast.length + 1) = t.take dt := by
        have h5 : D ++ t.take dt = (D.dropLast ++ ['/']) ++ t.take dt := by
          rw [hD']
        have h3 : D.dropLast.length + 1 = (D.dropLast ++ ['/']).length := by simp
        rw [htake, h5, h3, List.drop_left]
      simp only [splitextPy, hdall, hdt, hsepAdj, hsept]
      rw [if_pos (by omega : D.dropLast.length + 1 ≤ D.dropLast.length + 1 + dt),
        if_pos (Nat.zero_le dt), hslice, List.drop_zero]
      by_cases hany : (t.take dt).any (fun a => a ≠ '.') = true
      · rw [if_pos hany, if_pos hany, htake, hdrop]
      · rw [if_neg hany, if_neg hany]
    | none =>
      have hd2 : rfindIdx '.' ('/' :: t) = none := by
        rw [rfindIdx, hdt]
        simp
      have hdall : rfindIdx '.' (D ++ t) = rfindIdx '.' D.dropLast := by
        rw [e1]
        exact rfindIdx_append_of_none '.' _ _ hd2
      cases hDd : rfindIdx '.' D.dropLast with
      | none =>
        rw [hDd] at hdall
        simp only [splitextPy, hdall, hdt]
      | some dc =>
        rw [hDd] at hdall
        have hlt : dc < D.dropLast.length := rfindIdx_lt_length _ _ _ hDd
        simp only [splitextPy, hdall, hdt, hsepAdj]
        rw [if_neg (by omega : ¬D.dropLast.length + 1 ≤ dc)]

theorem drop_len_append (a b : Str) : (a ++ b).drop a.length = b :=
  List.drop_left a b

theorem splitextPy_cases (t : Str) (ht : '/' ∉ t) :
    (∃ a b, t = a ++ '.' :: b ∧ '.' ∉ b ∧ a.any (fun x => x ≠ '.') = true ∧
      splitextPy t = (a, '.' :: b)) ∨
    (splitextPy t = (t, []) ∧
      ('.' ∉ t ∨ ∃ a b, t = a ++ '.' :: b ∧ '.' ∉ b ∧
        a.any (fun x => x ≠ '.') = false)) := by
  have hsept : sepAdj t = 0 := sepAdj_of_not_mem t ht
  cases hdt : rfindIdx '.' t with
  | none =>
    right
    constructor
    · simp only [splitextPy, hdt]
    · exact Or.inl ((rfindIdx_eq_none_iff _ _).1 hdt)
  | some dt =>
    obtain ⟨a, b, hab, hk, hb⟩ := rfindIdx_eq_some '.' t dt hdt
    have htake : t.take dt = a := by rw [hab, ← hk, take_len_append]
    have hdrop : t.drop dt = '.' :: b := by
      rw [hab, ← hk]
      have : a ++ '.' :: b = a ++ ('.' :: b) := rfl
      rw [this, drop_len_append]
    by_cases hany : (t.take dt).any (fun x => x ≠ '.') = true
    · left
      refine ⟨a, b, hab, hb, by rw [← htake]; exact hany, ?_⟩
      simp only [splitextPy, hdt, hsept]
      rw [if_pos (Nat.zero_le dt), List.drop_zero, if_pos hany, htake, hdrop]
    · right
      constructor
      · simp only [splitextPy, hdt, hsept]
        rw [if_pos (Nat.zero_le dt), List.drop_zero, if_neg hany]
      · right
        refine ⟨a, b, hab, hb, ?_⟩
        rw [← htake]
        exact Bool.eq_false_iff.2 hany

theorem splitextPy_resplit (t s e s₁ s₂ sfx : Str)
    (ht : '/' ∉ t) (hse : splitextPy t = (s, e))
    (hs : s = s₁ ++ '_' :: s₂)
    (hdot : '.' ∉ sfx) (hslash : '/' ∉ sfx) :
    splitextPy (s₁ ++ '_' :: (sfx ++ e)) = (s₁ ++ '_' :: sfx, e) := by
  have hs₁t : ∀ x, x ∈ s₁ → x ∈ t := by
    intro x hx
    have hst : (splitextPy t).1 ++ (splitextPy t).2 = t := splitextPy_cat t
    rw [hse] at hst
    rw [← hst, hs]
    exact List.mem_append_left _ (List.mem_append_left _ hx)
  have hslash₁ : '/' ∉ s₁ := fun hx => ht (hs₁t '/' hx)
  rcases splitextPy_cases t ht with ⟨a, b, hab, hb, hany, hspl⟩ | ⟨hspl, hor⟩
  · rw [hse] at hspl
    simp only [Prod.mk.injEq] at hspl
    obtain ⟨hsa, heb⟩ := hspl
    subst heb
    have hbt : ∀ x, x ∈ b → x ∈ t := fun x hx => by
      rw [hab]; exact List.mem_append_right _ (List.mem_cons_of_mem _ hx)
    have he2 : s₁ ++ '_' :: (sfx ++ '.' :: b) = (s₁ ++ '_' :: sfx) ++ '.' :: b := by
      simp
    have hrf : rfindIdx '.' (s₁ ++ '_' :: (sfx ++ '.' :: b)) =
        some (s₁ ++ '_' :: sfx).length := by
      rw [he2]; exact rfindIdx_append_of_not_mem _ _ _ hb
    have hsl2 : '/' ∉ s₁ ++ '_' :: (sfx ++ '.' :: b) := by
      intro hx
      simp only [List.mem_append, List.mem_cons] at hx
      rcases hx with h1 | h2 | h3 | h4 | h5
      · exact hslash₁ h1
      · exact absurd h2 (by decide)
      · exact hslash h3
      · exact absurd h4 (by decide)
      · exact ht (hbt '/' h5)
    have hsepA : sepAdj (s₁ ++ '_' :: (sfx ++ '.' :: b)) = 0 :=
      sepAdj_of_not_mem _ hsl2
    have htk : (s₁ ++ '_' :: (sfx ++ '.' :: b)).take (s₁ ++ '_' :: sfx).length =
        s₁ ++ '_' :: sfx := by
      rw [he2]; exact List.take_left _ _
    have hdp : (s₁ ++ '_' :: (sfx ++ '.' :: b)).drop (s₁ ++ '_' :: sfx).length =
        '.' :: b := by
      rw [he2]; exact List.drop_left _ _
    simp only [splitextPy, hrf, hsepA]
    rw [if_pos (Nat.zero_le _), List.drop_zero, htk,
      if_pos (List.any_eq_true.2 ⟨'_', by simp, by decide⟩), hdp]
  · rw [hse] at hspl
    simp only [Prod.mk.injEq] at hspl
    obtain ⟨hst, he⟩ := hspl
    subst he
    rw [List.append_nil]
    have hteq : t = s₁ ++ '_' :: s₂ := by rw [← hst, hs]
    rcases hor with hnd | ⟨a, b, hab, hb, hanyf⟩
    · have hnd₁ : '.' ∉ s₁ := fun hx => hnd (hs₁t '.' hx)
      have hnd2 : '.' ∉ s₁ ++ '_' :: sfx := by
        intro hx
        simp only [List.mem_append, List.mem_cons] at hx
        rcases hx with h1 | h2 | h3
        · exact hnd₁ h1
        · exact absurd h2 (by decide)
        · exact hdot h3
      simp only [splitextPy, (rfindIdx_eq_none_iff '.' _).2 hnd2]
    · have hall : ∀ x ∈ a, x = '.' := by
        intro x hx
        by_contra hne
        have hc : a.any (fun x => x ≠ '.') = true :=
          List.any_eq_true.2 ⟨x, hx, by simpa using hne⟩
        rw [hanyf] at hc
        exact Bool.noConfusion hc
      have hlen1 : a.length + 1 ≤ s₁.length := by
        by_contra hlt
        push_neg at hlt
        have h1 : t.take (s₁.length + 1) = s₁ ++ ['_'] := by
          rw [hteq]; exact take_len_succ_append _ _ _
        have h2 : t.take (a.length + 1) = a ++ ['.'] := by
          rw [hab]; exact take_len_succ_append _ _ _
        have h3 : (t.take (a.length + 1)).take (s₁.length + 1) =
            t.take (s₁.length + 1) := by
          rw [List.take_take]
          congr 1
          omega
        have hu : '_' ∈ a ++ ['.'] := by
          have hm1 : '_' ∈ t.take (s₁.length + 1) := by
            rw [h1]; simp
          rw [← h3, h2] at hm1
          exact List.take_subset _ _ hm1
        rcases List.mem_append.1 hu with hua | hud
        · exact absurd (hall '_' hua) (by decide)
        · simp at hud
      obtain ⟨m, hm⟩ : ∃ m, s₁.length = a.length + 1 + m :=
        ⟨s₁.length - (a.length + 1), by omega⟩
      have hc : s₁ = a ++ '.' :: b.take m := by
        have h1 : s₁ = t.take s₁.length := by
          rw [hteq, take_len_append]
        have h2 : t = (a ++ ['.']) ++ b := by rw [hab]; simp
        rw [h1, h2, hm]
        have h3 : a.length + 1 + m = (a ++ ['.']).length + m := by simp
        rw [h3, List.take_append]
        simp
      have hcb : '.' ∉ b.take m := fun hx => hb (List.take_subset _ _ hx)
      have ht2 : s₁ ++ '_' :: sfx = a ++ '.' :: (b.take m ++ '_' :: sfx) := by
        rw [hc]; simp
      have hnd3 : '.' ∉ b.take m ++ '_' :: sfx := by
        intro hx
        simp only [List.mem_append, List.mem_cons] at hx
        rcases hx with h1 | h2 | h3
        · exact hcb h1
        · exact absurd h2 (by decide)
        · exact hdot h3
      have hrf : rfindIdx '.' (s₁ ++ '_' :: sfx) = some a.length := by
        rw [ht2]; exact rfindIdx_append_of_not_mem _ _ _ hnd3
      have hsl2 : '/' ∉ s₁ ++ '_' :: sfx := by
        intro hx
        simp only [List.mem_append, List.mem_cons] at hx
        rcases hx with h1 | h2 | h3
        · exact hslash₁ h1
        · exact absurd h2 (by decide)
        · exact hslash h3
      have hsepA : sepAdj (s₁ ++ '_' :: sfx) = 0 := sepAdj_of_not_mem _ hsl2
      have htk : (s₁ ++ '_' :: sfx).take a.length = a := by
        rw [ht2]; exact take_len_append _ _ _
      simp only [splitextPy, hrf, hsepA]
      rw [if_pos (Nat.zero_le _), List.drop_zero, htk,
        if_neg (by simpa using hall : ¬(a.any (fun x => x ≠ '.') = true))]

theorem slash_not_mem_splitext_fst (t : Str) (ht : '/' ∉ t) :
    '/' ∉ (splitextPy t).1 := fun hx =>
  ht (by rw [← splitextPy_cat t]; exact List.mem_append_left _ hx)

theorem slash_not_mem_splitext_snd (t : Str) (ht : '/' ∉ t) :
    '/' ∉ (splitextPy t).2 := fun hx =>
  ht (by rw [← splitextPy_cat t]; exact List.mem_append_right _ hx)

/-- Normal form of `mk_filename` when the stem of the input's base name
contains an underscore: the directory region of the re-rooted name is
kept, the stem is cut at its last underscore, and the suffix and the
extension are appended. -/
theorem mk_filename_norm (od : Option Str) (fn sfx : Str)
    (hus : '_' ∈ (splitextPy (tailLastSlash fn)).1) :
    ∃ s₁ s₂,
      (splitextPy (tailLastSlash fn)).1 = s₁ ++ '_' :: s₂ ∧ '_' ∉ s₂ ∧
      mk_filename od fn sfx =
        dirOf od fn ++ (s₁ ++ '_' :: (sfx ++ (splitextPy (tailLastSlash fn)).2)) := by
  obtain ⟨hre, hD⟩ := reroot_decomp od fn
  have ht : '/' ∉ tailLastSlash fn := not_slash_mem_tailLastSlash fn
  have hsp : splitextPy (reroot od fn) =
      (dirOf od fn ++ (splitextPy (tailLastSlash fn)).1,
       (splitextPy (tailLastSlash fn)).2) := by
    rw [hre]
    exact splitextPy_append _ _ hD ht
  obtain ⟨s₁, s₂, hdecomp, hns₂, -⟩ := exists_last_of_mem '_' _ hus
  refine ⟨s₁, s₂, hdecomp, hns₂, ?_⟩
  rw [mk_filename_eq, hsp]
  simp only
  rw [hdecomp]
  have hcut : cutAtLastUnderscore (dirOf od fn ++ (s₁ ++ '_' :: s₂)) =
      dirOf od fn ++ s₁ := by
    have h2 : dirOf od fn ++ (s₁ ++ '_' :: s₂) =
        (dirOf od fn ++ s₁) ++ '_' :: s₂ := by simp
    rw [h2]
    exact cutAtLastUnderscore_append _ _ hns₂
  rw [hcut]
  simp

/-- Idempotence of `mk_filename` for a suffix free of underscores, dots
and slashes, on inputs whose base-name stem contains an underscore. -/
theorem mk_filename_twice_eq (od : Option Str) (fn sfx : Str)
    (h1 : '_' ∉ sfx) (h2 : '.' ∉ sfx) (h3 : '/' ∉ sfx)
    (hus : '_' ∈ (splitextPy (tailLastSlash fn)).1) :
    mk_filename od (mk_filename od fn sfx) sfx = mk_filename od fn sfx := by
  obtain ⟨s₁, s₂, hdec, hns₂, hr1⟩ := mk_filename_norm od fn sfx hus
  have ht : '/' ∉ tailLastSlash fn := not_slash_mem_tailLastSlash fn
  obtain ⟨-, hD⟩ := reroot_decomp od fn
  have hsl₁ : '/' ∉ s₁ := by
    intro hx
    exact slash_not_mem_splitext_fst _ ht
      (by rw [hdec]; exact List.mem_append_left _ hx)
  have hsle : '/' ∉ (splitextPy (tailLastSlash fn)).2 :=
    slash_not_mem_splitext_snd _ ht
  have ht2 : '/' ∉ s₁ ++ '_' :: (sfx ++ (splitextPy (tailLastSlash fn)).2) := by
    intro hx
    simp only [List.mem_append, List.mem_cons] at hx
    rcases hx with hx1 | hx2 | hx3 | hx4
    · exact hsl₁ hx1
    · exact absurd hx2 (by decide)
    · exact h3 hx3
    · exact hsle hx4
  have hre2 : reroot od (mk_filename od fn sfx) =
      dirOf od fn ++ (s₁ ++ '_' :: (sfx ++ (splitextPy (tailLastSlash fn)).2)) := by
    cases od with
    | none => exact hr1
    | some d =>
      show pyJoin d (tailLastSlash (mk_filename (some d) fn sfx)) = _
      rw [hr1]
      rw [tailLastSlash_append _ _ hD ht2]
      exact pyJoin_eq d _ ht2
  have hres := splitextPy_resplit (tailLastSlash fn)
    (splitextPy (tailLastSlash fn)).1 (splitextPy (tailLastSlash fn)).2
    s₁ s₂ sfx ht rfl hdec h2 h3
  have hspl2 : splitextPy (reroot od (mk_filename od fn sfx)) =
      (dirOf od fn ++ (s₁ ++ '_' :: sfx),
       (splitextPy (tailLastSlash fn)).2) := by
    rw [hre2, splitextPy_append _ _ hD ht2, hres]
  rw [mk_filename_eq od (mk_filename od fn sfx) sfx, hspl2]
  simp only
  have hcut : cutAtLastUnderscore (dirOf od fn ++ (s₁ ++ '_' :: sfx)) =
      dirOf od fn ++ s₁ := by
    have hh : dirOf od fn ++ (s₁ ++ '_' :: sfx) =
        (dirOf od fn ++ s₁) ++ '_' :: sfx := by simp
    rw [hh]
    exact cutAtLastUnderscore_append _ _ h1
  rw [hcut, hr1]
  simp

/-- The directory component of a well-formed directory joined with a
slash-free file name is that directory. -/
theorem pyDirname_append (d rest : Str) (hd : d ≠ [])
    (hl : d.getLast? ≠ some '/') (hr : '/' ∉ rest) :
    pyDirname (d ++ '/' :: rest) = d := by
  have hrf : rfindIdx '/' (d ++ '/' :: rest) = some d.length :=
    rfindIdx_append_of_not_mem _ _ _ hr
  have htk : (d ++ '/' :: rest).take (d.length + 1) = d ++ ['/'] :=
    take_len_succ_append _ _ _
  have hlastc : d.getLast hd ≠ '/' := by
    intro hc
    exact hl (by rw [List.getLast?_eq_getLast_of_ne_nil hd, hc])
  have hnall : ¬(d ++ ['/']).all (fun a => a = '/') = true := by
    intro hall
    have := List.all_eq_true.1 hall (d.getLast hd)
      (List.mem_append_left _ (List.getLast_mem hd))
    exact hlastc (by simpa using this)
  have hrev : d.reverse = d.getLast hd :: (d.reverse.tail) := by
    have hh : d.reverse.head? = some (d.getLast hd) := by
      rw [List.head?_reverse, List.getLast?_eq_getLast_of_ne_nil hd]
    cases hr2 : d.reverse with
    | nil => rw [hr2] at hh; exact Option.noConfusion hh
    | cons x xs =>
      rw [hr2] at hh
      rw [List.head?_cons, Option.some.injEq] at hh
      rw [← hh]
      rfl
  have hstrip : rstripSlash (d ++ ['/']) = d := by
    rw [rstripSlash]
    have h1 : (d ++ ['/']).reverse = '/' :: d.reverse := by simp
    rw [h1, List.dropWhile_cons]
    rw [if_pos (by decide)]
    rw [hrev, List.dropWhile_cons, if_neg (by simpa using hlastc), ← hrev,
      List.reverse_reverse]
  simp only [pyDirname, hrf]
  rw [htk, if_neg hnall, hstrip]

/-! ## Trace observations -/

theorem targetLoop_images (env : Env) (st : CubeModel) (ts : List Str) :
    ∀ ctr, (targetLoop env st ts ctr).2.1 =
      (ts.map (fun t => env.outlier_detection (branchImages env st t))).flatten := by
  induction ts with
  | nil => intro ctr; simp [targetLoop]
  | cons t rest ih =>
    intro ctr
    simp only [targetLoop, List.map_cons, List.flatten_cons, ih (ctr + 3)]

theorem targetLoop_ctr (env : Env) (st : CubeModel) (ts : List Str) :
    ∀ ctr, (targetLoop env st ts ctr).2.2 = ctr + 3 * ts.length := by
  induction ts with
  | nil => intro ctr; simp [targetLoop]
  | cons t rest ih =>
    intro ctr
    simp only [targetLoop, ih (ctr + 3), List.length_cons]
    omega

theorem targetLoop_outlierArgs (env : Env) (st : CubeModel) (ts : List Str) :
    ∀ ctr, (targetLoop env st ts ctr).1.filterMap outlierArg =
      ts.map (fun t => branchImages env st t) := by
  induction ts with
  | nil => intro ctr; simp [targetLoop]
  | cons t rest ih =>
    intro ctr
    simp only [targetLoop, List.filterMap_append, ih (ctr + 3), List.map_cons]
    rfl

theorem targetLoop_resampleArgs (env : Env) (st : CubeModel) (ts : List Str) :
    ∀ ctr, (targetLoop env st ts ctr).1.filterMap resampleArg = [] := by
  induction ts with
  | nil => intro ctr; simp [targetLoop]
  | cons t rest ih =>
    intro ctr
    simp only [targetLoop, List.filterMap_append, ih (ctr + 3)]
    rfl

theorem targetLoop_savePairs (env : Env) (st : CubeModel) (ts : List Str) :
    ∀ ctr, (targetLoop env st ts ctr).1.filterMap savePair =
      (ts.map (fun t =>
        [(CKind.psfAligned, mk_filename env.output_dir t psfalignSfx),
         (CKind.psfSub, mk_filename env.output_dir t psfsubSfx)])).flatten := by
  induction ts with
  | nil => intro ctr; simp [targetLoop]
  | cons t rest ih =>
    intro ctr
    simp only [targetLoop, List.filterMap_append, ih (ctr + 3), List.map_cons,
      List.flatten_cons]
    rfl

theorem targetLoop_closeIds (env : Env) (st : CubeModel) (ts : List Str) :
    ∀ ctr, (targetLoop env st ts ctr).1.filterMap closeId =
      (List.range ts.length).map (fun j => ctr + 3 * j) := by
  induction ts with
  | nil => intro ctr; simp [targetLoop]
  | cons t rest ih =>
    intro ctr
    simp only [targetLoop, List.filterMap_append, ih (ctr + 3), List.length_cons]
    rw [List.range_succ_eq_map]
    simp only [List.map_cons, List.map_map]
    have hb : (branchEvents env st t ctr).filterMap closeId = [ctr] := by
      simp [branchEvents, closeId]
    have hcomp : (List.range rest.length).map ((fun j => ctr + 3 * j) ∘ Nat.succ) =
        (List.range rest.length).map (fun j => ctr + 3 + 3 * j) := by
      apply List.map_congr_left
      intro j hj
      show ctr + 3 * (j + 1) = ctr + 3 + 3 * j
      omega
    rw [hb, hcomp]
    simp

theorem targetLoop_createPairs (env : Env) (st : CubeModel) (ts : List Str) :
    ∀ ctr, (targetLoop env st ts ctr).1.filterMap createPair =
      ((List.range ts.length).map (fun j =>
        [(ctr + 3 * j, CKind.psfAligned),
         (ctr + 3 * j + 1, CKind.psfSub),
         (ctr + 3 * j + 2, CKind.targetModels)])).flatten := by
  induction ts with
  | nil => intro ctr; simp [targetLoop]
  | cons t rest ih =>
    intro ctr
    simp only [targetLoop, List.filterMap_append, ih (ctr + 3), List.length_cons]
    rw [List.range_succ_eq_map]
    simp only [List.map_cons, List.map_map, List.flatten_cons]
    have hb : (branchEvents env st t ctr).filterMap createPair =
        [(ctr, CKind.psfAligned), (ctr + 1, CKind.psfSub),
         (ctr + 2, CKind.targetModels)] := by
      simp [branchEvents, createPair]
    have hcomp : (List.range rest.length).map ((fun j =>
        [(ctr + 3 * j, CKind.psfAligned), (ctr + 3 * j + 1, CKind.psfSub),
         (ctr + 3 * j + 2, CKind.targetModels)]) ∘ Nat.succ) =
        (List.range rest.length).map (fun j =>
        [(ctr + 3 + 3 * j, CKind.psfAligned), (ctr + 3 + 3 * j + 1, CKind.psfSub),
         (ctr + 3 + 3 * j + 2, CKind.targetModels)]) := by
      apply List.map_congr_left
      intro j hj
      show [(ctr + 3 * (j + 1), CKind.psfAligned),
        (ctr + 3 * (j + 1) + 1, CKind.psfSub),
        (ctr + 3 * (j + 1) + 2, CKind.targetModels)] =
        [(ctr + 3 + 3 * j, CKind.psfAligned), (ctr + 3 + 3 * j + 1, CKind.psfSub),
         (ctr + 3 + 3 * j + 2, CKind.targetModels)]
      have e : ctr + 3 * (j + 1) = ctr + 3 + 3 * j := by omega
      rw [e]
    rw [hb, hcomp]
    simp

theorem flatten_map_singleton (l : List Nat) (f : Nat → Nat) :
    (l.map (fun a => [f a])).flatten = l.map f := by
  induction l with
  | nil => rfl
  | cons a rest ih => simp [ih]

theorem process_eq_success (env : Env) (asn : Assoc) (prod : Product)
    (hp : asn.products.head? = some prod)
    (h1 : (partitionMembers prod.members).1 ≠ [])
    (h2 : (partitionMembers prod.members).2 ≠ []) :
    process env asn = some (successTrace env prod
      (partitionMembers prod.members).1 (partitionMembers prod.members).2) := by
  simp only [process, hp]
  rw [if_neg h1, if_neg h2]

theorem process_eq_empty (env : Env) (asn : Assoc) (prod : Product)
    (hp : asn.products.head? = some prod)
    (h : (partitionMembers prod.members).1 = [] ∨
      (partitionMembers prod.members).2 = []) :
    process env asn = some [] := by
  simp only [process, hp]
  by_cases h1 : (partitionMembers prod.members).1 = []
  · rw [if_pos h1]
  · rw [if_neg h1]
    rcases h with ha | hb
    · exact absurd ha h1
    · rw [if_pos hb]

theorem successTrace_savePairs (env : Env) (prod : Product)
    (psf_files targ_files : List Str) :
    (successTrace env prod psf_files targ_files).filterMap savePair =
      (CKind.psfStack, joinOut env.output_dir (prod.name psfstackType)) ::
      ((targ_files.map (fun t =>
        [(CKind.psfAligned, mk_filename env.output_dir t psfalignSfx),
         (CKind.psfSub, mk_filename env.output_dir t psfsubSfx)])).flatten ++
       [(CKind.result, joinOut env.output_dir (prod.name coroncmbType))]) := by
  have hload : (((List.range psf_files.length).map (fun i =>
      [Ev.create (i + 1) CKind.inputCube, Ev.close (i + 1)])).flatten).filterMap
        savePair = [] := by
    rw [List.filterMap_flatten, List.map_map]
    have : ∀ i, (List.filterMap savePair ∘ fun i =>
        [Ev.create (i + 1) CKind.inputCube, Ev.close (i + 1)]) i = [] := by
      intro i
      simp [Function.comp, savePair]
    rw [List.map_congr_left (fun i _ => this i)]
    induction (List.range psf_files.length) with
    | nil => rfl
    | cons a rest ih => simp [ih]
  simp only [successTrace, List.filterMap_cons, List.filterMap_append, hload,
    targetLoop_savePairs]
  simp [savePair]

theorem load_region_filterMap {β : Type} (n : Nat) (f : Ev → Option β)
    (g : Nat → List β)
    (hper : ∀ i, List.filterMap f
      [Ev.create (i + 1) CKind.inputCube, Ev.close (i + 1)] = g i) :
    (((List.range n).map (fun i =>
      [Ev.create (i + 1) CKind.inputCube, Ev.close (i + 1)])).flatten).filterMap f =
      ((List.range n).map g).flatten := by
  rw [List.filterMap_flatten, List.map_map]
  congr 1
  exact List.map_congr_left (fun i _ => hper i)

theorem flatten_map_nil {α β : Type} (l : List α) :
    (l.map (fun _ => ([] : List β))).flatten = [] := by
  induction l with
  | nil => rfl
  | cons a rest ih => simp [ih]

theorem flatten_map_single {α β : Type} (l : List α) (f : α → β) :
    (l.map (fun a => [f a])).flatten = l.map f := by
  induction l with
  | nil => rfl
  | cons a rest ih => simp [ih]

theorem successTrace_closeIds (env : Env) (prod : Product)
    (psf_files targ_files : List Str) :
    (successTrace env prod psf_files targ_files).filterMap closeId =
      ((List.range psf_files.length).map (fun i => i + 1)) ++ [0] ++
      ((List.range targ_files.length).map
        (fun j => psf_files.length + 3 + 3 * j)) ++
      [psf_files.length + 3 + 3 * targ_files.length] := by
  have hload := load_region_filterMap psf_files.length closeId
    (fun i => [i + 1]) (by intro i; simp [closeId])
  simp only [successTrace, List.filterMap_cons, List.filterMap_append, hload,
    targetLoop_closeIds, targetLoop_ctr, flatten_map_single]
  simp [closeId]

theorem successTrace_createPairs (env : Env) (prod : Product)
    (psf_files targ_files : List Str) :
    (successTrace env prod psf_files targ_files).filterMap createPair =
      (0, CKind.psfModels) ::
      ((List.range psf_files.length).map (fun i => (i + 1, CKind.inputCube))) ++
      [(psf_files.length + 1, CKind.psfStack),
       (psf_files.length + 2, CKind.resampleInput)] ++
      ((List.range targ_files.length).map (fun j =>
        [(psf_files.length + 3 + 3 * j, CKind.psfAligned),
         (psf_files.length + 3 + 3 * j + 1, CKind.psfSub),
         (psf_files.length + 3 + 3 * j + 2, CKind.targetModels)])).flatten ++
      [(psf_files.length + 3 + 3 * targ_files.length, CKind.result)] := by
  have hload := load_region_filterMap psf_files.length createPair
    (fun i => [(i + 1, CKind.inputCube)]) (by intro i; simp [createPair])
  simp only [successTrace, List.filterMap_cons, List.filterMap_append, hload,
    targetLoop_createPairs, targetLoop_ctr, flatten_map_single]
  simp [createPair]

theorem successTrace_outlierArgs (env : Env) (prod : Product)
    (psf_files targ_files : List Str) :
    (successTrace env prod psf_files targ_files).filterMap outlierArg =
      targ_files.map (fun t =>
        branchImages env (env.stack_refs (psf_files.map env.loadCube)) t) := by
  have hload := load_region_filterMap psf_files.length outlierArg
    (fun _ => []) (by intro i; simp [outlierArg])
  simp only [successTrace, List.filterMap_cons, List.filterMap_append, hload,
    targetLoop_outlierArgs, flatten_map_nil]
  simp [outlierArg]

theorem successTrace_resampleArgs (env : Env) (prod : Product)
    (psf_files targ_files : List Str) :
    (successTrace env prod psf_files targ_files).filterMap resampleArg =
      [(targ_files.map (fun t => env.outlier_detection
        (branchImages env (env.stack_refs (psf_files.map env.loadCube)) t))).flatten] := by
  have hload := load_region_filterMap psf_files.length resampleArg
    (fun _ => []) (by intro i; simp [resampleArg])
  simp only [successTrace, List.filterMap_cons, List.filterMap_append, hload,
    targetLoop_resampleArgs, targetLoop_images, flatten_map_nil]
  simp [resampleArg]

theorem countP_range_zero (m : Nat) (p : Nat → Bool)
    (h : ∀ i, i < m → p i = false) :
    (List.range m).countP p = 0 := by
  apply List.countP_eq_zero.2
  intro x hx
  rw [List.mem_range] at hx
  simp [h x hx]

theorem countP_range_unique (m : Nat) (p : Nat → Bool) (j : Nat) (hj : j < m)
    (hp : ∀ i, i < m → (p i = true ↔ i = j)) :
    (List.range m).countP p = 1 := by
  induction m with
  | zero => omega
  | succ m ih =>
    rw [List.range_succ, List.countP_append]
    by_cases hjm : j = m
    · have h0 : (List.range m).countP p = 0 := by
        apply countP_range_zero
        intro i him
        by_cases hpi : p i = true
        · exact absurd ((hp i (by omega)).1 hpi) (by omega)
        · exact Bool.eq_false_iff.2 hpi
      have hpm : p m = true := (hp m (by omega)).2 hjm.symm
      rw [h0, List.countP_cons]
      simp [hpm]
    · have h1 : (List.range m).countP p = 1 := by
        apply ih (by omega)
        intro i hi
        exact hp i (by omega)
      have hpm : p m = false := by
        by_cases hq : p m = true
        · exact absurd ((hp m (by omega)).1 hq) (fun he => hjm he.symm)
        · exact Bool.eq_false_iff.2 hq
      rw [h1, List.countP_cons]
      simp [hpm]

theorem countP_map_range_zero (m : Nat) (f : Nat → Nat) (a : Nat)
    (h : ∀ j, j < m → ¬f j = a) :
    ((List.range m).map f).countP (fun x => x = a) = 0 := by
  rw [List.countP_map]
  apply countP_range_zero
  intro i hi
  simp [Function.comp, h i hi]

theorem countP_map_range_one (m : Nat) (f : Nat → Nat) (a j : Nat) (hj : j < m)
    (hfa : f j = a) (huniq : ∀ i, i < m → f i = a → i = j) :
    ((List.range m).map f).countP (fun x => x = a) = 1 := by
  rw [List.countP_map]
  apply countP_range_unique _ _ j hj
  intro i hi
  constructor
  · intro hpi
    exact huniq i hi (by simpa [Function.comp] using hpi)
  · intro he
    subst he
    simp [Function.comp, hfa]

theorem countP_single (a b : Nat) :
    [b].countP (fun x => x = a) = if b = a then 1 else 0 := by
  rw [List.countP_cons]
  simp

theorem length_flatten_two {α β : Type} (ts : List α) (f g : α → β) :
    ((ts.map (fun t => [f t, g t])).flatten).length = 2 * ts.length := by
  induction ts with
  | nil => rfl
  | cons a rest ih =>
    simp only [List.map_cons, List.flatten_cons, List.length_append, ih,
      List.length_cons, List.length_nil]
    ring

theorem countP_flatten_two {α β : Type} (ts : List α) (f g : α → β)
    (p : β → Bool) (a b : Nat)
    (hf : ∀ t, (if p (f t) then 1 else 0) = a)
    (hg : ∀ t, (if p (g t) then 1 else 0) = b) :
    ((ts.map (fun t => [f t, g t])).flatten).countP p = (a + b) * ts.length := by
  induction ts with
  | nil => simp
  | cons t rest ih =>
    simp only [List.map_cons, List.flatten_cons, List.countP_append,
      List.countP_cons, List.countP_nil, ih, hf t, hg t, List.length_cons]
    ring

/-! ## Claim theorems -/

/-- C4: for every manifest whose first product has zero PSF members, or
at least one PSF member but zero SCIENCE members, `process` returns
normally (no exception) with an empty event trace: no stage collaborator
is invoked and zero saves are performed. -/
theorem c4_abort_on_empty_partition (env : Env) (asn : Assoc) (prod : Product)
    (hp : asn.products.head? = some prod)
    (h : (partitionMembers prod.members).1 = [] ∨
      ((partitionMembers prod.members).1 ≠ [] ∧
        (partitionMembers prod.members).2 = [])) :
    ∃ tr, process env asn = some tr ∧ tr = [] ∧
      tr.countP isStageCall = 0 ∧ tr.countP isSave = 0 := by
  have h' : (partitionMembers prod.members).1 = [] ∨
      (partitionMembers prod.members).2 = [] := by
    rcases h with h | ⟨-, h⟩
    · exact Or.inl h
    · exact Or.inr h
  exact ⟨[], process_eq_empty env asn prod hp h', rfl, rfl, rfl⟩

/-- Witness for C4 at a concrete manifest with one PSF member and no
SCIENCE members. -/
theorem c4_witness :
    ∃ tr, process demoEnv demoAsnPsfOnly = some tr ∧ tr = [] ∧
      tr.countP isStageCall = 0 ∧ tr.countP isSave = 0 :=
  c4_abort_on_empty_partition demoEnv demoAsnPsfOnly demoProdPsfOnly
    rfl (Or.inr ⟨by decide, by decide⟩)

/-- C10: for every manifest whose products list is empty, `process`
raises (modelled as the `none` outcome): there is no trace at all, so no
partitioning and no save happened; the logged-abort path with a `some`
result applies only to empty partitions of an existing first product. -/
theorem c10_empty_products_raises (env : Env) (asn : Assoc)
    (h : asn.products = []) :
    process env asn = none := by
  simp [process, h]

/-- Witness for C10 at a concrete manifest with no products. -/
theorem c10_witness : process demoEnv demoAsnNoProducts = none :=
  c10_empty_products_raises demoEnv demoAsnNoProducts rfl

/-- C6: partitioning classifies the members by upper-cased exposure-type
tag: the PSF file list is exactly the expnames of members whose
upper-cased tag is PSF and the target file list exactly those whose
upper-cased tag is SCIENCE, both in manifest order; members with any
other tag appear in neither list, and no tag is an error. -/
theorem c6_partition_spec (ms : List Member) :
    (partitionMembers ms).1 =
      (ms.filter (fun m => pyUpper m.exptype = psfTag)).map Member.expname ∧
    (partitionMembers ms).2 =
      (ms.filter (fun m => pyUpper m.exptype = scienceTag)).map Member.expname := by
  induction ms with
  | nil => exact ⟨rfl, rfl⟩
  | cons m rest ih =>
    simp only [partitionMembers, List.filter_cons]
    constructor
    · by_cases h : pyUpper m.exptype = psfTag
      · simp [h, ih.1]
      · simp [h, ih.1]
    · by_cases h : pyUpper m.exptype = scienceTag
      · simp [h, ih.2]
      · simp [h, ih.2]

/-- C5: the split step produces exactly one single-plane container per
plane of the KLIP result's leading data dimension, in plane order, each
carrying that plane's data, error and data-quality arrays, with the
metadata attributes copied and the WCS copied verbatim.  The two length
hypotheses record that the error and data-quality cubes have one plane
per data plane (as any well-formed KLIP product does; with fewer planes
the original code would fail on an out-of-range index). -/
theorem c5_split_spec (c : CubeModel)
    (he : c.err.length = c.data.length) (hq : c.dq.length = c.data.length) :
    (splitPlanes c).length = c.data.length ∧
    ∀ i, i < c.data.length →
      (splitPlanes c)[i]? = some
        { data := c.data.getD i 0, err := c.err.getD i 0, dq := c.dq.getD i 0,
          meta := c.meta, wcs := c.wcs } := by
  constructor
  · simp [splitPlanes]
  · intro i hi
    rw [splitPlanes, List.getElem?_map, List.getElem?_range hi]
    rfl

/-- Witness for C5 at a concrete two-plane cube. -/
theorem c5_witness :
    (splitPlanes demoCube).length = demoCube.data.length ∧
    ∀ i, i < demoCube.data.length →
      (splitPlanes demoCube)[i]? = some
        { data := demoCube.data.getD i 0, err := demoCube.err.getD i 0,
          dq := demoCube.dq.getD i 0, meta := demoCube.meta,
          wcs := demoCube.wcs } :=
  c5_split_spec demoCube (by decide) (by decide)

/-- C9: when the base of the re-rooted input (extension removed)
contains no underscore, `mk_filename` does not fail: the rfind sentinel
makes the slice drop the base's final character, and the result is that
shortened base, an underscore, the suffix, and the original extension. -/
theorem c9_no_underscore_fallback (od : Option Str) (fn sfx : Str)
    (h : '_' ∉ (splitextPy (reroot od fn)).1) :
    mk_filename od fn sfx =
      (splitextPy (reroot od fn)).1.dropLast ++
        '_' :: (sfx ++ (splitextPy (reroot od fn)).2) := by
  rw [mk_filename_eq, cutAtLastUnderscore_of_not_mem _ h]

/-- Witness for C9 at a concrete underscore-free base name. -/
theorem c9_witness :
    '_' ∉ (splitextPy (reroot none (['a', 'b', '.', 'f'] : Str))).1 ∧
    mk_filename none (['a', 'b', '.', 'f'] : Str) psfsubSfx =
      (splitextPy (reroot none (['a', 'b', '.', 'f'] : Str))).1.dropLast ++
        '_' :: (psfsubSfx ++ (splitextPy (reroot none (['a', 'b', '.', 'f'] : Str))).2) :=
  ⟨by decide, c9_no_underscore_fallback none _ psfsubSfx (by decide)⟩

/-- C3: for every manifest with at least one PSF and one SCIENCE member,
`process` runs to completion and performs exactly one final save, one
psfstack save, and one psfalign and one psfsub save per SCIENCE member:
2 + 2 * N_targets saves in total, i.e. one final plus 1 + 2 * N_targets
intermediate saves. -/
theorem c3_save_counts (env : Env) (asn : Assoc) (prod : Product)
    (hp : asn.products.head? = some prod)
    (h1 : (partitionMembers prod.members).1 ≠ [])
    (h2 : (partitionMembers prod.members).2 ≠ []) :
    ∃ tr, process env asn = some tr ∧
      (tr.filterMap savePair).countP (fun pr => pr.1 = CKind.result) = 1 ∧
      (tr.filterMap savePair).countP (fun pr => pr.1 = CKind.psfStack) = 1 ∧
      (tr.filterMap savePair).countP (fun pr => pr.1 = CKind.psfAligned) =
        (partitionMembers prod.members).2.length ∧
      (tr.filterMap savePair).countP (fun pr => pr.1 = CKind.psfSub) =
        (partitionMembers prod.members).2.length ∧
      (tr.filterMap savePair).length =
        2 + 2 * (partitionMembers prod.members).2.length := by
  refine ⟨_, process_eq_success env asn prod hp h1 h2, ?_, ?_, ?_, ?_, ?_⟩ <;>
    rw [successTrace_savePairs]
  · rw [List.countP_cons, List.countP_append,
      countP_flatten_two _ _ _ _ 0 0 (fun t => by simp) (fun t => by simp)]
    simp
  · rw [List.countP_cons, List.countP_append,
      countP_flatten_two _ _ _ _ 0 0 (fun t => by simp) (fun t => by simp)]
    simp
  · rw [List.countP_cons, List.countP_append,
      countP_flatten_two _ _ _ _ 1 0 (fun t => by simp) (fun t => by simp)]
    simp
  · rw [List.countP_cons, List.countP_append,
      countP_flatten_two _ _ _ _ 0 1 (fun t => by simp) (fun t => by simp)]
    simp
  · rw [List.length_cons, List.length_append, length_flatten_two]
    simp
    omega

/-- Witness for C3 at a concrete manifest with one PSF and one SCIENCE
member. -/
theorem c3_witness :
    ∃ tr, process demoEnv demoAsn1 = some tr ∧
      (tr.filterMap savePair).countP (fun pr => pr.1 = CKind.result) = 1 ∧
      (tr.filterMap savePair).countP (fun pr => pr.1 = CKind.psfStack) = 1 ∧
      (tr.filterMap savePair).countP (fun pr => pr.1 = CKind.psfAligned) =
        (partitionMembers demoProd1.members).2.length ∧
      (tr.filterMap savePair).countP (fun pr => pr.1 = CKind.psfSub) =
        (partitionMembers demoProd1.members).2.length ∧
      (tr.filterMap savePair).length =
        2 + 2 * (partitionMembers demoProd1.members).2.length :=
  c3_save_counts demoEnv demoAsn1 demoProd1 rfl (by decide) (by decide)

/-- C1 as amended: outlier detection is invoked once per SCIENCE member,
in manifest order, each time on that member's container of single-plane
KLIP results (not once on the full accumulated collection), and resample
is invoked exactly once, on the concatenation of the collections the
outlier-detection invocations return. -/
theorem c1_outlier_per_target (env : Env) (asn : Assoc) (prod : Product)
    (hp : asn.products.head? = some prod)
    (h1 : (partitionMembers prod.members).1 ≠ [])
    (h2 : (partitionMembers prod.members).2 ≠ []) :
    ∃ tr, process env asn = some tr ∧
      tr.filterMap outlierArg =
        (partitionMembers prod.members).2.map (fun t =>
          branchImages env
            (env.stack_refs ((partitionMembers prod.members).1.map env.loadCube)) t) ∧
      (tr.filterMap outlierArg).length = (partitionMembers prod.members).2.length ∧
      tr.filterMap resampleArg =
        [((partitionMembers prod.members).2.map (fun t => env.outlier_detection
          (branchImages env
            (env.stack_refs ((partitionMembers prod.members).1.map env.loadCube)) t))).flatten] := by
  refine ⟨_, process_eq_success env asn prod hp h1 h2, ?_, ?_, ?_⟩
  · exact successTrace_outlierArgs env prod _ _
  · rw [successTrace_outlierArgs]
    simp
  · exact successTrace_resampleArgs env prod _ _

/-- Counterexample to C1 as stated: a manifest with one PSF and two
SCIENCE members, on which the outlier-detection stage is invoked twice,
not exactly once. -/
theorem c1_counterexample :
    (partitionMembers demoProd2.members).1 ≠ [] ∧
    (partitionMembers demoProd2.members).2 ≠ [] ∧
    (process demoEnv demoAsn2).map (fun tr => (tr.filterMap outlierArg).length) =
      some 2 ∧
    (process demoEnv demoAsn2).map (fun tr => (tr.filterMap outlierArg).length) ≠
      some 1 := by
  exact ⟨by decide, by decide, by decide, by decide⟩

/-- Witness for the amended C1 at a concrete one-PSF one-SCIENCE
manifest. -/
theorem c1_witness :
    ∃ tr, process demoEnv demoAsn1 = some tr ∧
      tr.filterMap outlierArg =
        (partitionMembers demoProd1.members).2.map (fun t =>
          branchImages demoEnv
            (demoEnv.stack_refs
              ((partitionMembers demoProd1.members).1.map demoEnv.loadCube)) t) ∧
      (tr.filterMap outlierArg).length =
        (partitionMembers demoProd1.members).2.length ∧
      tr.filterMap resampleArg =
        [((partitionMembers demoProd1.members).2.map (fun t =>
          demoEnv.outlier_detection
            (branchImages demoEnv
              (demoEnv.stack_refs
                ((partitionMembers demoProd1.members).1.map demoEnv.loadCube)) t))).flatten] :=
  c1_outlier_per_target demoEnv demoAsn1 demoProd1 rfl (by decide) (by decide)

/-- C2 as amended: on the success path every created container's number
of releases is fixed by its kind: the psf_models aggregate, each loaded
input cube, each per-target psfalign container and the final combined
result are released exactly once, while the psfstack product, the
psfsub products, the per-target split containers and the resample input
are never released (the code leaks them). -/
theorem c2_release_discipline (env : Env) (asn : Assoc) (prod : Product)
    (hp : asn.products.head? = some prod)
    (h1 : (partitionMembers prod.members).1 ≠ [])
    (h2 : (partitionMembers prod.members).2 ≠ []) :
    ∃ tr, process env asn = some tr ∧
      ∀ id k, (id, k) ∈ tr.filterMap createPair →
        (tr.filterMap closeId).countP (fun x => x = id) = expectedCloses k := by
  refine ⟨_, process_eq_success env asn prod hp h1 h2, ?_⟩
  intro id k hmem
  rw [successTrace_createPairs] at hmem
  rw [successTrace_closeIds]
  set n := (partitionMembers prod.members).1.length with hn
  set N := (partitionMembers prod.members).2.length with hN
  simp only [List.mem_cons, List.mem_append, List.mem_map, List.mem_flatten,
    List.mem_range, Prod.mk.injEq] at hmem
  rcases hmem with
    (((⟨rfl, rfl⟩ | ⟨i, hi, rfl, rfl⟩) | ⟨rfl, rfl⟩ | ⟨rfl, rfl⟩ | hemp) |
      ⟨l, ⟨j, hj, rfl⟩, hin⟩) | ⟨rfl, rfl⟩ | hemp
  · rw [List.countP_append, List.countP_append, List.countP_append,
      countP_single, countP_single,
      countP_map_range_zero n (fun i => i + 1) 0
        (by intro a ha he; have h3 : a + 1 = 0 := he; omega),
      countP_map_range_zero N (fun j => n + 3 + 3 * j) 0
        (by intro a ha he; have h3 : n + 3 + 3 * a = 0 := he; omega),
      if_pos rfl, if_neg (by omega)]
    rfl
  · rw [List.countP_append, List.countP_append, List.countP_append,
      countP_single, countP_single,
      countP_map_range_one n (fun i => i + 1) (i + 1) i hi rfl
        (by intro a ha he; have h3 : a + 1 = i + 1 := he; omega),
      countP_map_range_zero N (fun j => n + 3 + 3 * j) (i + 1)
        (by intro a ha he; have h3 : n + 3 + 3 * a = i + 1 := he; omega),
      if_neg (by omega), if_neg (by omega)]
    rfl
  · rw [List.countP_append, List.countP_append, List.countP_append,
      countP_single, countP_single,
      countP_map_range_zero n (fun i => i + 1) (n + 1)
        (by intro a ha he; have h3 : a + 1 = n + 1 := he; omega),
      countP_map_range_zero N (fun j => n + 3 + 3 * j) (n + 1)
        (by intro a ha he; have h3 : n + 3 + 3 * a = n + 1 := he; omega),
      if_neg (by omega), if_neg (by omega)]
    rfl
  · rw [List.countP_append, List.countP_append, List.countP_append,
      countP_single, countP_single,
      countP_map_range_zero n (fun i => i + 1) (n + 2)
        (by intro a ha he; have h3 : a + 1 = n + 2 := he; omega),
      countP_map_range_zero N (fun j => n + 3 + 3 * j) (n + 2)
        (by intro a ha he; have h3 : n + 3 + 3 * a = n + 2 := he; omega),
      if_neg (by omega), if_neg (by omega)]
    rfl
  · exact absurd hemp (List.not_mem_nil _)
  · simp only [List.mem_cons, Prod.mk.injEq, List.not_mem_nil, or_false] at hin
    rcases hin with ⟨rfl, rfl⟩ | ⟨rfl, rfl⟩ | ⟨rfl, rfl⟩
    · rw [List.countP_append, List.countP_append, List.countP_append,
        countP_single, countP_single,
        countP_map_range_zero n (fun i => i + 1) (n + 3 + 3 * j)
          (by intro a ha he; have h3 : a + 1 = n + 3 + 3 * j := he; omega),
        countP_map_range_one N (fun a => n + 3 + 3 * a) (n + 3 + 3 * j) j hj
          rfl (by intro a ha he; have h3 : n + 3 + 3 * a = n + 3 + 3 * j := he; omega),
        if_neg (by omega), if_neg (by omega)]
      rfl
    · rw [List.countP_append, List.countP_append, List.countP_append,
        countP_single, countP_single,
        countP_map_range_zero n (fun i => i + 1) (n + 3 + 3 * j + 1)
          (by intro a ha he; have h3 : a + 1 = n + 3 + 3 * j + 1 := he; omega),
        countP_map_range_zero N (fun a => n + 3 + 3 * a) (n + 3 + 3 * j + 1)
          (by intro a ha he; have h3 : n + 3 + 3 * a = n + 3 + 3 * j + 1 := he; omega),
        if_neg (by omega), if_neg (by omega)]
      rfl
    · rw [List.countP_append, List.countP_append, List.countP_append,
        countP_single, countP_single,
        countP_map_range_zero n (fun i => i + 1) (n + 3 + 3 * j + 2)
          (by intro a ha he; have h3 : a + 1 = n + 3 + 3 * j + 2 := he; omega),
        countP_map_range_zero N (fun a => n + 3 + 3 * a) (n + 3 + 3 * j + 2)
          (by intro a ha he; have h3 : n + 3 + 3 * a = n + 3 + 3 * j + 2 := he; omega),
        if_neg (by omega), if_neg (by omega)]
      rfl
  · rw [List.countP_append, List.countP_append, List.countP_append,
      countP_single, countP_single,
      countP_map_range_zero n (fun i => i + 1) (n + 3 + 3 * N)
        (by intro a ha he; have h3 : a + 1 = n + 3 + 3 * N := he; omega),
      countP_map_range_zero N (fun a => n + 3 + 3 * a) (n + 3 + 3 * N)
        (by intro a ha he; have h3 : n + 3 + 3 * a = n + 3 + 3 * N := he; omega),
      if_neg (by omega), if_pos rfl]
    rfl
  · exact absurd hemp (List.not_mem_nil _)

/-- Counterexample to C2 as stated: in a concrete run the psfstack
product (container id 2) is created and saved but never released,
contradicting "each intermediate output product is released exactly
once". -/
theorem c2_counterexample :
    (2, CKind.psfStack) ∈ ((process demoEnv demoAsn1).getD []).filterMap createPair ∧
    (((process demoEnv demoAsn1).getD []).filterMap closeId).countP
      (fun x => x = 2) = 0 ∧
    process demoEnv demoAsn1 ≠ some [] :=
  ⟨by decide, by decide, by decide⟩

/-- Witness for the amended C2 at a concrete one-PSF one-SCIENCE
manifest. -/
theorem c2_witness :
    ∃ tr, process demoEnv demoAsn1 = some tr ∧
      ∀ id k, (id, k) ∈ tr.filterMap createPair →
        (tr.filterMap closeId).countP (fun x => x = id) = expectedCloses k :=
  c2_release_discipline demoEnv demoAsn1 demoProd1 rfl (by decide) (by decide)

/-- C7 as amended: the naming function is idempotent in its suffix
replacement for every suffix free of underscores, dots and slashes (the
pipeline's psfalign/psfsub suffixes are such), on every input path whose
base-name stem contains an underscore, with any output-directory
override applied both times. -/
theorem c7_idempotent (od : Option Str) (fn sfx : Str)
    (h1 : '_' ∉ sfx) (h2 : '.' ∉ sfx) (h3 : '/' ∉ sfx)
    (hus : '_' ∈ (splitextPy (tailLastSlash fn)).1) :
    mk_filename od (mk_filename od fn sfx) sfx = mk_filename od fn sfx :=
  mk_filename_twice_eq od fn sfx h1 h2 h3 hus

/-- Counterexample to C7 as stated: for input x_y.f and suffix a_b
(which contains an underscore), applying the naming function twice
yields x_a_a_b.f, not the single-application result x_a_b.f. -/
theorem c7_counterexample :
    mk_filename none (mk_filename none (['x', '_', 'y', '.', 'f'] : Str)
        (['a', '_', 'b'] : Str)) (['a', '_', 'b'] : Str) ≠
      mk_filename none (['x', '_', 'y', '.', 'f'] : Str)
        (['a', '_', 'b'] : Str) := by
  decide

/-- Witness for the amended C7 with the pipeline's psfsub suffix and a
concrete override and input. -/
theorem c7_witness :
    '_' ∉ psfsubSfx ∧ '.' ∉ psfsubSfx ∧ '/' ∉ psfsubSfx ∧
    '_' ∈ (splitextPy (tailLastSlash (['s', '1', '_', 'c', '.', 'f'] : Str))).1 ∧
    mk_filename (some outDirPlain) (mk_filename (some outDirPlain)
        (['s', '1', '_', 'c', '.', 'f'] : Str) psfsubSfx) psfsubSfx =
      mk_filename (some outDirPlain) (['s', '1', '_', 'c', '.', 'f'] : Str)
        psfsubSfx :=
  ⟨by decide, by decide, by decide, by decide,
    c7_idempotent (some outDirPlain) (['s', '1', '_', 'c', '.', 'f'] : Str)
      psfsubSfx (by decide) (by decide) (by decide) (by decide)⟩

theorem joinDir_eq_concat (d : Str) (hd0 : d ≠ [])
    (hdl : d.getLast? ≠ some '/') : joinDir d = d ++ ['/'] := by
  rw [joinDir, if_neg hd0, if_neg hdl]

theorem joinOut_dirname (d nm : Str) (hd0 : d ≠ [])
    (hdl : d.getLast? ≠ some '/') (hn : '/' ∉ nm) :
    pyDirname (joinOut (some d) nm) = d := by
  show pyDirname (pyJoin d nm) = d
  rw [pyJoin_eq d nm hn, joinDir_eq_concat d hd0 hdl]
  have h2 : d ++ ['/'] ++ nm = d ++ '/' :: nm := by simp
  rw [h2]
  exact pyDirname_append d nm hd0 hdl hn

theorem mk_filename_dirname (d t sfx : Str) (hd0 : d ≠ [])
    (hdl : d.getLast? ≠ some '/') (hsfx : '/' ∉ sfx)
    (hus : '_' ∈ (splitextPy (tailLastSlash t)).1) :
    pyDirname (mk_filename (some d) t sfx) = d := by
  obtain ⟨s₁, s₂, hdec, hns₂, hr⟩ := mk_filename_norm (some d) t sfx hus
  have ht : '/' ∉ tailLastSlash t := not_slash_mem_tailLastSlash t
  have hsl₁ : '/' ∉ s₁ := fun hx => slash_not_mem_splitext_fst _ ht
    (by rw [hdec]; exact List.mem_append_left _ hx)
  have hsle : '/' ∉ (splitextPy (tailLastSlash t)).2 :=
    slash_not_mem_splitext_snd _ ht
  have hrest : '/' ∉ s₁ ++ '_' :: (sfx ++ (splitextPy (tailLastSlash t)).2) := by
    intro hx
    simp only [List.mem_append, List.mem_cons] at hx
    rcases hx with hx1 | hx2 | hx3 | hx4
    · exact hsl₁ hx1
    · exact absurd hx2 (by decide)
    · exact hsfx hx3
    · exact hsle hx4
  rw [hr]
  have hdo : dirOf (some d) t = joinDir d := rfl
  rw [hdo, joinDir_eq_concat d hd0 hdl]
  have h2 : d ++ ['/'] ++ (s₁ ++ '_' :: (sfx ++ (splitextPy (tailLastSlash t)).2)) =
      d ++ '/' :: (s₁ ++ '_' :: (sfx ++ (splitextPy (tailLastSlash t)).2)) := by
    simp
  rw [h2]
  exact pyDirname_append d _ hd0 hdl hrest

/-- C8 as amended: with an output-directory override that is nonempty,
has no trailing slash, formatted product names free of slashes, and
target file names whose base-name stem contains an underscore, every
persisted artifact path (psfstack, psfalign, psfsub and the final
product) has its directory component equal to the override, regardless
of the directory components of the original input paths.  (Without the
stem-underscore condition the last-underscore search can reach into an
override that itself contains an underscore, escaping the directory —
see the counterexample.) -/
theorem c8_outdir_all_saves (env : Env) (asn : Assoc) (prod : Product) (d : Str)
    (hp : asn.products.head? = some prod)
    (h1 : (partitionMembers prod.members).1 ≠ [])
    (h2 : (partitionMembers prod.members).2 ≠ [])
    (hod : env.output_dir = some d)
    (hd0 : d ≠ []) (hdl : d.getLast? ≠ some '/')
    (hn1 : '/' ∉ prod.name psfstackType)
    (hn2 : '/' ∉ prod.name coroncmbType)
    (hts : ∀ t ∈ (partitionMembers prod.members).2,
      '_' ∈ (splitextPy (tailLastSlash t)).1) :
    ∃ tr, process env asn = some tr ∧
      ∀ k p, (k, p) ∈ tr.filterMap savePair → pyDirname p = d := by
  refine ⟨_, process_eq_success env asn prod hp h1 h2, ?_⟩
  intro k p hmem
  rw [successTrace_savePairs, hod] at hmem
  simp only [List.mem_cons, List.mem_append, List.mem_map, List.mem_flatten,
    Prod.mk.injEq] at hmem
  rcases hmem with ⟨rfl, rfl⟩ | ⟨l, ⟨t, ht, rfl⟩, hin⟩ | ⟨rfl, rfl⟩ | hemp
  · exact joinOut_dirname d _ hd0 hdl hn1
  · simp only [List.mem_cons, Prod.mk.injEq, List.not_mem_nil, or_false] at hin
    rcases hin with ⟨rfl, rfl⟩ | ⟨rfl, rfl⟩
    · exact mk_filename_dirname d t psfalignSfx hd0 hdl (by decide) (hts t ht)
    · exact mk_filename_dirname d t psfsubSfx hd0 hdl (by decide) (hts t ht)
  · exact joinOut_dirname d _ hd0 hdl hn2
  · exact absurd hemp (List.not_mem_nil _)

/-- Counterexample to C8 as stated: with override /tmp/out_dir and the
science input xy.f, the run saves its psfalign product at
/tmp/out_psfalign.f, whose directory component /tmp is not the
override. -/
theorem c8_counterexample :
    (CKind.psfAligned, outBadPath) ∈
      ((process envOutUnd demoAsnNoUnd).getD []).filterMap savePair ∧
    pyDirname outBadPath ≠ outDirUnd :=
  ⟨by decide, by decide⟩

/-- Witness for the amended C8 at a concrete run with override
/tmp/out. -/
theorem c8_witness :
    ∃ tr, process envOutPlain demoAsn1 = some tr ∧
      ∀ k p, (k, p) ∈ tr.filterMap savePair → pyDirname p = outDirPlain :=
  c8_outdir_all_saves envOutPlain demoAsn1 demoProd1 outDirPlain rfl
    (by decide) (by decide) rfl (by decide) (by decide) (by decide)
    (by decide) (by decide)
